import Mathlib

/-!
Verification of the navigation and filtering core of a directory-browsing
quick picker (source file: `src/extension.ts`).

JavaScript strings are modelled as Lean `String` (a list of characters);
Node's POSIX path routines (`path.join`, `path.normalize`, `path.dirname`,
with `path.sep = "/"`) are modelled explicitly below.  The filesystem,
display and editor collaborators are abstract: the filesystem is a pair of
fallible functions, the quick-pick widget is a record of its observable
fields.
-/

/-- Model of JavaScript `String.prototype.length` (counted in characters). -/
def jsLen (s : String) : Nat := s.data.length

/-- The first list is a leading run of the second. -/
def leadsWith : List Char → List Char → Bool
  | [], _ => true
  | _ :: _, [] => false
  | a :: as, b :: bs => a == b && leadsWith as bs

/-- Model of JavaScript `s.startsWith(pre)`. -/
def jsStartsWith (s pre : String) : Bool := leadsWith pre.data s.data

/-- Model of JavaScript `s.endsWith(suf)`. -/
def jsEndsWith (s suf : String) : Bool := leadsWith suf.data.reverse s.data.reverse

/-- The first list occurs contiguously inside the second. -/
def occursIn (n : List Char) : List Char → Bool
  | [] => n.isEmpty
  | c :: t => leadsWith n (c :: t) || occursIn n t

/-- Model of JavaScript `s.includes(sub)`. -/
def jsIncludes (s sub : String) : Bool := occursIn sub.data s.data

/-- Model of JavaScript `s.substring(n)`. -/
def jsSubstringFrom (s : String) (n : Nat) : String := ⟨s.data.drop n⟩

/-- JavaScript whitespace (the ASCII part; Unicode space classes are not
needed for the properties below). -/
def isJsSpace (c : Char) : Bool :=
  c == ' ' || c == '\t' || c == '\n' || c == '\r' || c == '\x0b' || c == '\x0c'

/-- Model of JavaScript `s.trim()`. -/
def jsTrim (s : String) : String :=
  ⟨((s.data.dropWhile isJsSpace).reverse.dropWhile isJsSpace).reverse⟩

/-- Model of JavaScript `s.toLowerCase()` (ASCII case folding). -/
def jsToLower (s : String) : String := ⟨s.data.map Char.toLower⟩

/-- Split a character list at `'/'` into path segments. -/
def splitOnSlash : List Char → List (List Char)
  | [] => [[]]
  | c :: rest =>
    match splitOnSlash rest with
    | [] => [[]]
    | h :: t => if c == '/' then [] :: h :: t else (c :: h) :: t

/-- The `".."` step of Node's `normalizeString` on the reversed output
stack: pop a plain segment, stack a further `".."` on a `".."` (or on an
empty stack) when climbing above the start is allowed (`a`), drop it
otherwise. -/
def ddStep (a : Bool) (acc : List (List Char)) : List (List Char) :=
  match acc with
  | [] => if a then [['.', '.']] else []
  | p :: t => if p = ['.', '.'] then ['.', '.'] :: p :: t else t

/-- Core of Node's `normalizeString`: fold the segments, dropping empty and
`"."` segments and resolving `".."` (which may climb above the start only
when `a` is set, i.e. for relative paths).  `acc` holds the already emitted
segments in reverse. -/
def resolveComps (a : Bool) : List (List Char) → List (List Char) → List (List Char)
  | acc, [] => acc.reverse
  | acc, c :: rest =>
    if c = [] ∨ c = ['.'] then resolveComps a acc rest
    else if c = ['.', '.'] then resolveComps a (ddStep a acc) rest
    else resolveComps a (c :: acc) rest

/-- Canonical form of a path string: absoluteness flag plus fully resolved
segment list.  Two strings denote the same filesystem path iff their
canonical forms agree. -/
def canonList (l : List Char) : Bool × List (List Char) :=
  (leadsWith ['/'] l, resolveComps (!leadsWith ['/'] l) [] (splitOnSlash l))

/-- Canonical form of a path. -/
def canonPath (p : String) : Bool × List (List Char) := canonList p.data

/-- Path equality: equality of canonical forms. -/
def pathEq (p q : String) : Prop := canonPath p = canonPath q

/-- Join segments with `'/'`. -/
def intercalateSlash : List (List Char) → List Char
  | [] => []
  | [c] => c
  | c :: c₂ :: rest => c ++ '/' :: intercalateSlash (c₂ :: rest)

/-- Model of Node `path.posix.normalize` on the character list. -/
def normalizeList (l : List Char) : List Char :=
  if l = [] then ['.']
  else
    let abs := leadsWith ['/'] l
    let trail := leadsWith ['/'] l.reverse
    let comps := resolveComps (!abs) [] (splitOnSlash l)
    if comps = [] then (if abs then ['/'] else if trail then ['.', '/'] else ['.'])
    else (if abs then ['/'] else []) ++ intercalateSlash comps ++ (if trail then ['/'] else [])

/-- Model of Node `path.posix.normalize`. -/
def pathNormalize (p : String) : String := ⟨normalizeList p.data⟩

/-- Model of Node `path.posix.join` on two arguments: drop empty arguments,
concatenate with `'/'`, normalize. -/
def pathJoin (a b : String) : String :=
  if a = "" then (if b = "" then "." else pathNormalize b)
  else if b = "" then pathNormalize a
  else pathNormalize (a ++ "/" ++ b)

/-- Model of Node `path.posix.dirname` on the character list: scan from the
end (never looking at index 0), skip trailing separators, then cut just
before the separator that precedes the last segment. -/
def dirnameList (s : List Char) : List Char :=
  if s = [] then ['.']
  else
    let hasRoot := s.head? == some '/'
    let r := (s.drop 1).reverse
    let rest := (r.dropWhile (fun c => c == '/')).dropWhile (fun c => !(c == '/'))
    if rest = [] then (if hasRoot then ['/'] else ['.'])
    else if hasRoot && rest.length == 1 then ['/', '/']
    else s.take rest.length

/-- Model of Node `path.posix.dirname`. -/
def dirname (p : String) : String := ⟨dirnameList p.data⟩

/-- Model of the extension's `FileItem`.  `uri` holds the item's filesystem
path (the `vscode.Uri` wrapper adds no browsing logic); the cosmetic
`description` field is omitted; the optional `isCreateFile` marker is
modelled as a `Bool` defaulting to `false`. -/
structure FileItem where
  label : String
  uri : String
  isDirectory : Bool
  isFile : Bool
  isCreateFile : Bool
  deriving DecidableEq

/-- Result of a `stat` call. -/
structure FsStat where
  isDirectory : Bool
  isFile : Bool
  deriving DecidableEq

/-- The filesystem collaborator: directory enumeration and stat, each of
which may fail with a message. -/
structure FsModel where
  readdir : String → Except String (List String)
  stat : String → Except String FsStat

/-- Code-point comparison of strings, the model used here for the
default-locale `String.prototype.localeCompare`. -/
def cmpChars : List Char → List Char → Int
  | [], [] => 0
  | [], _ :: _ => -1
  | _ :: _, [] => 1
  | a :: as, b :: bs => if a < b then -1 else if b < a then 1 else cmpChars as bs

/-- Model of `a.label.localeCompare(b.label)`'s collation. -/
def localeCompare (x y : String) : Int := cmpChars x.data y.data

/-- The sort comparator of `getDirectoryItems`: the `".."` item first, then
directories before files, then ascending label comparison. -/
def compareItems (a b : FileItem) : Int :=
  if a.label = ".." then -1
  else if b.label = ".." then 1
  else if a.isDirectory && !b.isDirectory then -1
  else if !a.isDirectory && b.isDirectory then 1
  else localeCompare a.label b.label

/-- Nonpositive comparator result, the order realised by the sort. -/
abbrev itemLE (a b : FileItem) : Prop := compareItems a b ≤ 0

/-- `Array.prototype.sort` with a comparator is a stable sort; it is
modelled as a stable insertion sort by `compareItems · · ≤ 0`. -/
def sortItems (l : List FileItem) : List FileItem := l.insertionSort itemLE

/-- The synthetic `".."` parent entry shown in `cur`. -/
def parentItem (cur : String) : FileItem :=
  ⟨"..", dirname cur, true, false, false⟩

/-- A real child entry: bare name plus a trailing `"/"` for directories. -/
def childItem (cur name : String) (st : FsStat) : FileItem :=
  ⟨name ++ (if st.isDirectory then "/" else ""), pathJoin cur name, st.isDirectory, st.isFile, false⟩

/-- Stat every child in readdir order; the first failure aborts the whole
build (models the `await fs.promises.stat` throwing inside the `try`). -/
def buildItems (fs : FsModel) (cur : String) : List String → Except String (List FileItem)
  | [] => .ok []
  | f :: rest =>
    match fs.stat (pathJoin cur f) with
    | .error e => .error e
    | .ok st =>
      match buildItems fs cur rest with
      | .error e => .error e
      | .ok tl => .ok (childItem cur f st :: tl)

/-- Model of `getDirectoryItems` (a workspace root is assumed configured, as
in every claim below).  Returns the produced item list together with the
error message surfaced to the user, if any. -/
def getDirectoryItems (fs : FsModel) (root cur : String) : List FileItem × Option String :=
  match fs.readdir cur with
  | .error e => ([], some ("Error reading directory: " ++ e))
  | .ok files =>
    match buildItems fs cur files with
    | .error e => ([], some ("Error reading directory: " ++ e))
    | .ok rest => (sortItems ((if cur ≠ root then [parentItem cur] else []) ++ rest), none)

/-- Model of `getRelativePath` (workspace root configured); `sep` is the
platform `path.sep`. -/
def getRelativePath (sep root full : String) : String :=
  if jsStartsWith full root then
    let rel := jsSubstringFrom full (jsLen root)
    let r := if jsStartsWith rel sep || jsStartsWith rel "\\" then jsSubstringFrom rel 1 else rel
    if !(r == "") && !jsEndsWith r "/" then r ++ "/" else r
  else full

/-- Model of `getFullPath` (workspace root configured). -/
def getFullPath (root rel : String) : String := pathJoin root rel

/-- The create-file item offered for query `value` typed in directory
`cur`. -/
def createFileItem (cur value : String) : FileItem :=
  ⟨"📄 Create \"" ++ value ++ "\"", pathJoin cur value, false, true, true⟩

/-- Model of the `onDidChangeValue` handler: from the items currently held
by the quick pick and the typed `value`, the next items.  When some item
matches, the handler deliberately leaves the items untouched (visual
filtering is the widget's job). -/
def applyQuery (cur : String) (items : List FileItem) (value : String) : List FileItem :=
  let currentItems := items.filter (fun i => !i.isCreateFile)
  if value = "" then currentItems
  else
    let hasMatching := currentItems.any (fun i => jsIncludes (jsToLower i.label) (jsToLower value))
    if !hasMatching && !(jsTrim value == "") then currentItems ++ [createFileItem cur value]
    else items

/-- The actions a selection can resolve to. -/
inductive BrowserAction where
  | navigateUp (target : String)
  | createAndOpen (p : String)
  | navigateInto (p : String)
  | openFile (p : String)
  deriving DecidableEq

/-- The four entry kinds of the data model. -/
inductive EntryKind where
  | parentLink
  | createStub
  | directory
  | file
  deriving DecidableEq

/-- Kind of a displayed entry per the data model: the `".."` label marks the
parent link, the create marker the create stub, the directory flag a
directory, anything else a file. -/
def entryKind (e : FileItem) : EntryKind :=
  if e.label = ".." then .parentLink
  else if e.isCreateFile then .createStub
  else if e.isDirectory then .directory
  else .file

/-- Model of the `onDidAccept` dispatch on the selected item, with `cur` the
current directory. -/
def resolveSelection (cur : String) (e : FileItem) : BrowserAction :=
  if e.label = ".." then .navigateUp (dirname cur)
  else if e.isCreateFile then .createAndOpen e.uri
  else if e.isDirectory then .navigateInto e.uri
  else .openFile e.uri

/-- The observable quick-pick session state. -/
structure QuickPickState where
  currentPath : String
  items : List FileItem
  title : String
  value : String
  deriving DecidableEq

/-- The boundary check of `navigateToPathAndUpdateQuickPick`: refuse when
the target is shorter than the root or does not start with it. -/
def navGuard (root newPath : String) : Bool :=
  decide (jsLen newPath < jsLen root) || !jsStartsWith newPath root

/-- Model of `navigateToPathAndUpdateQuickPick`: a guarded transition that,
on acceptance, moves to the target directory, recomputes the items, updates
the title and clears the query. -/
def navigateToPathAndUpdateQuickPick (fs : FsModel) (sep root : String)
    (st : QuickPickState) (newPath : String) : QuickPickState :=
  if navGuard root newPath then st
  else
    ⟨newPath, (getDirectoryItems fs root newPath).1,
      ">>> " ++ getRelativePath sep root newPath, ""⟩

/-- Current directories reachable in one browsing session seeded at
`init`.  `show` seeds the session with the workspace root when there is no
active editor, and otherwise with `dirname` of the active editor's file —
any file, with no workspace check — so the code's sessions are exactly
`Reachable root root` and `Reachable root (dirname f)` for an arbitrary
file `f`; every further step is a navigation request through the boundary
guard. -/
inductive Reachable (root init : String) : String → Prop where
  | init_state : Reachable root init init
  | nav (cur target : String) (h : Reachable root init cur) :
      Reachable root init (if navGuard root target then cur else target)

/-- A plain path segment: nonempty, not a dot, not a double dot, slash
free. -/
def goodComp (c : List Char) : Prop :=
  c ≠ [] ∧ c ≠ ['.'] ∧ c ≠ ['.', '.'] ∧ '/' ∉ c

/-! ### Demo inputs shared by the witnesses -/

/-- A plain file entry used by witnesses. -/
def demoFile : FileItem := ⟨"readme.md", "/ws/readme.md", false, true, false⟩

/-- A tiny concrete filesystem used by witnesses. -/
def demoFs : FsModel :=
  ⟨fun d => if d == "/ws" then .ok ["a.txt"] else .error "missing",
   fun p => if p == "/ws/a.txt" then .ok ⟨false, true⟩ else .error "missing"⟩

/-- A filesystem whose stat of one child fails. -/
def demoFsStatFail : FsModel :=
  ⟨fun d => if d == "/ws" then .ok ["a", "b"] else .error "missing",
   fun p => if p == "/ws/a" then .ok ⟨false, true⟩ else .error "boom"⟩

/-- A filesystem whose directory read fails. -/
def demoFsReadFail : FsModel :=
  ⟨fun _ => .error "gone", fun _ => .error "gone"⟩

/-- A quick-pick state used by witnesses. -/
def demoState : QuickPickState := ⟨"/ws", [demoFile], ">>> ", ""⟩

example : dirname "/ws/sub/a.txt" = "/ws/sub" := by decide
example : dirname "/ws" = "/" := by decide
example : pathJoin "/ws" "src/" = "/ws/src/" := by decide
example : pathNormalize "/ws/a/../b" = "/ws/b" := by decide
example : getRelativePath "/" "/ws" "/ws/src" = "src/" := by decide
example : getRelativePath "/" "/ws" "/ws" = "" := by decide

/-! ### Basic facts about the string helpers -/

theorem leadsWith_append (l t : List Char) : leadsWith l (l ++ t) = true := by
  induction l with
  | nil => rfl
  | cons a as ih => simp [leadsWith, ih]

theorem leadsWith_refl (l : List Char) : leadsWith l l = true := by
  have h := leadsWith_append l []
  simpa using h

theorem jsStartsWith_refl (s : String) : jsStartsWith s s = true :=
  leadsWith_refl s.data

/-! ### Claim C5 -/

/-- C5: `resolveSelection` classifies every accepted entry into exactly one
action, determined by its kind: ParentLink yields NavigateUp (to the parent
of the current directory), CreateStub yields CreateAndOpen of its path,
Directory yields NavigateInto its path, File yields Open of its path; the
four cases are exhaustive and mutually exclusive (the kind function is
total, and each kind maps to a distinct action constructor). -/
theorem resolveSelection_classifies (cur : String) (e : FileItem) :
    (resolveSelection cur e = match entryKind e with
      | .parentLink => .navigateUp (dirname cur)
      | .createStub => .createAndOpen e.uri
      | .directory => .navigateInto e.uri
      | .file => .openFile e.uri)
    ∧ (entryKind e = .parentLink ∨ entryKind e = .createStub ∨
        entryKind e = .directory ∨ entryKind e = .file) := by
  constructor
  · unfold resolveSelection entryKind
    by_cases h1 : e.label = ".." <;> by_cases h2 : e.isCreateFile = true <;>
      by_cases h3 : e.isDirectory = true <;>
      simp [h1, h2, h3]
  · unfold entryKind
    by_cases h1 : e.label = ".." <;> by_cases h2 : e.isCreateFile = true <;>
      by_cases h3 : e.isDirectory = true <;>
      simp [h1, h2, h3]

/-! ### Claims C4, C6, C7 (the query handler) -/

theorem filter_not_create_eq_self (items : List FileItem)
    (h : ∀ e ∈ items, e.isCreateFile = false) :
    items.filter (fun i => !i.isCreateFile) = items := by
  apply List.filter_eq_self.mpr
  intro a ha
  simp [h a ha]

/-- C4: on a stub-free entry list where no entry's name case-insensitively
contains the non-whitespace query, `applyQuery` returns the input entries
followed by exactly one CreateStub, positioned last, labelled with the
create label of the query and pointing at `join(currentDirectory, query)`. -/
theorem applyQuery_no_match_appends_stub (cur : String) (items : List FileItem) (value : String)
    (hstub : ∀ e ∈ items, e.isCreateFile = false)
    (hnom : ∀ e ∈ items, jsIncludes (jsToLower e.label) (jsToLower value) = false)
    (htrim : jsTrim value ≠ "") :
    applyQuery cur items value = items ++ [createFileItem cur value]
    ∧ (applyQuery cur items value).filter (fun e => e.isCreateFile) = [createFileItem cur value]
    ∧ (applyQuery cur items value).getLast? = some (createFileItem cur value) := by
  have hne : value ≠ "" := by
    intro h
    subst h
    exact htrim rfl
  have hfilt := filter_not_create_eq_self items hstub
  have hany : items.any (fun i => jsIncludes (jsToLower i.label) (jsToLower value)) = false := by
    simp only [List.any_eq_false]
    intro x hx
    simp [hnom x hx]
  have htrimb : (jsTrim value == "") = false := by
    simpa using htrim
  have hmain : applyQuery cur items value = items ++ [createFileItem cur value] := by
    unfold applyQuery
    simp only [hfilt, if_neg hne, hany, htrimb]
    simp
  refine ⟨hmain, ?_, ?_⟩
  · rw [hmain, List.filter_append]
    have h1 : items.filter (fun e => e.isCreateFile) = [] := by
      simp only [List.filter_eq_nil_iff]
      intro a ha
      simp [hstub a ha]
    rw [h1]
    simp [createFileItem]
  · rw [hmain]
    simp

/-- C6: on a stub-free entry list, the empty query returns the entries
unchanged with no CreateStub, and a whitespace-only query (trim empty,
query non-empty) matching no entry also returns the entries unchanged with
no CreateStub. -/
theorem applyQuery_empty_and_whitespace (cur : String) (items : List FileItem) (value : String)
    (hstub : ∀ e ∈ items, e.isCreateFile = false) :
    (applyQuery cur items "" = items
      ∧ ∀ e ∈ applyQuery cur items "", e.isCreateFile = false)
    ∧ (jsTrim value = "" → value ≠ "" →
        (∀ e ∈ items, jsIncludes (jsToLower e.label) (jsToLower value) = false) →
        applyQuery cur items value = items
          ∧ ∀ e ∈ applyQuery cur items value, e.isCreateFile = false) := by
  have hfilt := filter_not_create_eq_self items hstub
  constructor
  · have h : applyQuery cur items "" = items := by
      unfold applyQuery
      simp [hfilt]
    rw [h]
    exact ⟨rfl, hstub⟩
  · intro htrim hne _
    have htrimb : (jsTrim value == "") = true := by simpa using htrim
    have h : applyQuery cur items value = items := by
      unfold applyQuery
      simp [if_neg hne, htrimb]
    rw [h]
    exact ⟨rfl, hstub⟩

/-- C7: on a stub-free entry list, a non-empty query that some entry's name
case-insensitively contains leaves the entries exactly unchanged — nothing
is removed, reordered or added (visual filtering is delegated to the
display widget). -/
theorem applyQuery_match_is_noop (cur : String) (items : List FileItem) (value : String)
    (hstub : ∀ e ∈ items, e.isCreateFile = false)
    (hne : value ≠ "")
    (hmatch : ∃ e ∈ items, jsIncludes (jsToLower e.label) (jsToLower value) = true) :
    applyQuery cur items value = items
    ∧ ∀ e ∈ applyQuery cur items value, e.isCreateFile = false := by
  have hfilt := filter_not_create_eq_self items hstub
  have hany : items.any (fun i => jsIncludes (jsToLower i.label) (jsToLower value)) = true := by
    simp only [List.any_eq_true]
    obtain ⟨e, he, hm⟩ := hmatch
    exact ⟨e, he, by simp [hm]⟩
  have h : applyQuery cur items value = items := by
    unfold applyQuery
    simp [if_neg hne, hfilt, hany]
  rw [h]
  exact ⟨rfl, hstub⟩

theorem applyQuery_no_match_witness :
    applyQuery "/ws" [demoFile] "zzz" = [demoFile] ++ [createFileItem "/ws" "zzz"]
    ∧ (applyQuery "/ws" [demoFile] "zzz").filter (fun e => e.isCreateFile) =
        [createFileItem "/ws" "zzz"]
    ∧ (applyQuery "/ws" [demoFile] "zzz").getLast? = some (createFileItem "/ws" "zzz") :=
  applyQuery_no_match_appends_stub "/ws" [demoFile] "zzz" (by decide) (by decide) (by decide)

theorem applyQuery_empty_witness :
    applyQuery "/ws" [demoFile] "" = [demoFile]
    ∧ (∀ e ∈ applyQuery "/ws" [demoFile] "", e.isCreateFile = false)
    ∧ applyQuery "/ws" [demoFile] "  " = [demoFile]
    ∧ (∀ e ∈ applyQuery "/ws" [demoFile] "  ", e.isCreateFile = false) :=
  have h := applyQuery_empty_and_whitespace "/ws" [demoFile] "  " (by decide)
  ⟨h.1.1, h.1.2, (h.2 (by decide) (by decide) (by decide)).1,
    (h.2 (by decide) (by decide) (by decide)).2⟩

theorem applyQuery_match_witness :
    applyQuery "/ws" [demoFile] "READ" = [demoFile]
    ∧ ∀ e ∈ applyQuery "/ws" [demoFile] "READ", e.isCreateFile = false :=
  applyQuery_match_is_noop "/ws" [demoFile] "READ" (by decide) (by decide)
    ⟨demoFile, by decide, by decide⟩

/-! ### Claim C9 (accepted navigation) -/

/-- C9: every navigation target accepted by the boundary check moves the
session to the target directory, clears the query, replaces the displayed
items with the result of listing the new directory, and sets the title to
the root-relative form of the new directory. -/
theorem navigate_accept_updates_state (fs : FsModel) (sep root : String)
    (st : QuickPickState) (t : String) (h : navGuard root t = false) :
    (navigateToPathAndUpdateQuickPick fs sep root st t).currentPath = t
    ∧ (navigateToPathAndUpdateQuickPick fs sep root st t).value = ""
    ∧ (navigateToPathAndUpdateQuickPick fs sep root st t).items = (getDirectoryItems fs root t).1
    ∧ (navigateToPathAndUpdateQuickPick fs sep root st t).title =
        ">>> " ++ getRelativePath sep root t := by
  unfold navigateToPathAndUpdateQuickPick
  simp [h]

theorem navigate_accept_witness :
    (navigateToPathAndUpdateQuickPick demoFs "/" "/ws" demoState "/ws").currentPath = "/ws"
    ∧ (navigateToPathAndUpdateQuickPick demoFs "/" "/ws" demoState "/ws").value = ""
    ∧ (navigateToPathAndUpdateQuickPick demoFs "/" "/ws" demoState "/ws").items =
        (getDirectoryItems demoFs "/ws" "/ws").1
    ∧ (navigateToPathAndUpdateQuickPick demoFs "/" "/ws" demoState "/ws").title =
        ">>> " ++ getRelativePath "/" "/ws" "/ws" :=
  navigate_accept_updates_state demoFs "/" "/ws" demoState "/ws" (by decide)

/-! ### Claim C10 (listing aborts on a child stat failure) -/

theorem buildItems_error_of_mem (fs : FsModel) (cur : String) (files : List String)
    (h : ∃ f ∈ files, ∃ e, fs.stat (pathJoin cur f) = .error e) :
    ∃ e, buildItems fs cur files = .error e := by
  induction files with
  | nil =>
    obtain ⟨f, hf, _⟩ := h
    cases hf
  | cons a rest ih =>
    obtain ⟨f, hf, e, he⟩ := h
    cases hstat : fs.stat (pathJoin cur a) with
    | error e2 => exact ⟨e2, by simp [buildItems, hstat]⟩
    | ok st =>
      have hfr : f ∈ rest := by
        rcases List.mem_cons.mp hf with h1 | h1
        · subst h1
          rw [hstat] at he
          cases he
        · exact h1
      obtain ⟨e3, he3⟩ := ih ⟨f, hfr, e, he⟩
      refine ⟨e3, ?_⟩
      simp [buildItems, hstat, he3]

/-- C10: when the stat of any child fails during the listing, the whole
listing is aborted: the result is the empty item list with a user-visible
error message — exactly as when the directory read itself fails — and no
partial list of the already statted children is returned. -/
theorem listing_aborts_on_stat_failure :
    (∀ fs root cur files, fs.readdir cur = .ok files →
      (∃ f ∈ files, ∃ e, fs.stat (pathJoin cur f) = .error e) →
      (getDirectoryItems fs root cur).1 = [] ∧ (getDirectoryItems fs root cur).2 ≠ none)
    ∧ (∀ fs root cur e, fs.readdir cur = .error e →
      getDirectoryItems fs root cur = ([], some ("Error reading directory: " ++ e))) := by
  constructor
  · intro fs root cur files hrd hfail
    obtain ⟨e, he⟩ := buildItems_error_of_mem fs cur files hfail
    unfold getDirectoryItems
    simp [hrd, he]
  · intro fs root cur e hrd
    unfold getDirectoryItems
    simp [hrd]

theorem listing_aborts_witness :
    ((getDirectoryItems demoFsStatFail "/ws" "/ws").1 = []
      ∧ (getDirectoryItems demoFsStatFail "/ws" "/ws").2 ≠ none)
    ∧ getDirectoryItems demoFsReadFail "/ws" "/ws" =
        ([], some ("Error reading directory: " ++ "gone")) :=
  ⟨listing_aborts_on_stat_failure.1 demoFsStatFail "/ws" "/ws" ["a", "b"] rfl
      ⟨"b", by decide, "boom", rfl⟩,
    listing_aborts_on_stat_failure.2 demoFsReadFail "/ws" "/ws" "gone" rfl⟩

/-! ### Claim C3 (the listing order) -/

theorem char_eq_of_not_lt {a b : Char} (h1 : ¬a < b) (h2 : ¬b < a) : a = b :=
  Char.ext (UInt32.le_antisymm (Char.not_lt.mp h2) (Char.not_lt.mp h1))

theorem cmpChars_le_total (x y : List Char) : cmpChars x y ≤ 0 ∨ cmpChars y x ≤ 0 := by
  induction x generalizing y with
  | nil =>
    left
    cases y <;> simp [cmpChars]
  | cons a as ih =>
    cases y with
    | nil =>
      right
      simp [cmpChars]
    | cons b bs =>
      by_cases hab : a < b
      · left
        simp [cmpChars, hab]
      · by_cases hba : b < a
        · right
          simp [cmpChars, hba]
        · have heq : a = b := char_eq_of_not_lt hab hba
          subst heq
          rcases ih bs with h | h
          · left
            simpa [cmpChars] using h
          · right
            simpa [cmpChars] using h

theorem cmpChars_le_trans {x y z : List Char}
    (h1 : cmpChars x y ≤ 0) (h2 : cmpChars y z ≤ 0) : cmpChars x z ≤ 0 := by
  induction x generalizing y z with
  | nil =>
    cases z <;> simp [cmpChars]
  | cons a as ih =>
    cases y with
    | nil => simp [cmpChars] at h1
    | cons b bs =>
      cases z with
      | nil => simp [cmpChars] at h2
      | cons c cs =>
        by_cases hab : a < b
        · by_cases hbc : b < c
          · have hac : a < c := Char.lt_trans hab hbc
            simp [cmpChars, hac]
          · by_cases hcb : c < b
            · simp [cmpChars, hbc, hcb] at h2
            · have heq : b = c := char_eq_of_not_lt hbc hcb
              subst heq
              simp [cmpChars, hab]
        · by_cases hba : b < a
          · simp [cmpChars, hab, hba] at h1
          · have heq : a = b := char_eq_of_not_lt hab hba
            subst heq
            by_cases hbc : a < c
            · simp [cmpChars, hbc]
            · by_cases hcb : c < a
              · simp [cmpChars, hbc, hcb] at h2
              · have heq2 : a = c := char_eq_of_not_lt hbc hcb
                subst heq2
                simp only [cmpChars] at h1 h2 ⊢
                simp only [Char.lt_irrefl] at h1 h2 ⊢
                exact ih (y := bs) (by simpa using h1) (by simpa using h2)

theorem itemLE_total (a b : FileItem) : itemLE a b ∨ itemLE b a := by
  unfold itemLE compareItems
  by_cases h1 : a.label = ".."
  · left
    simp [h1]
  · by_cases h2 : b.label = ".."
    · right
      simp [h2]
    · cases hd1 : a.isDirectory <;> cases hd2 : b.isDirectory <;>
        simp [h1, h2, hd1, hd2, localeCompare] <;>
        exact cmpChars_le_total a.label.data b.label.data

theorem itemLE_trans (a b c : FileItem) (hab : itemLE a b) (hbc : itemLE b c) : itemLE a c := by
  unfold itemLE compareItems at hab hbc ⊢
  by_cases h1 : a.label = ".."
  · simp [h1]
  · by_cases h2 : b.label = ".."
    · simp [h1, h2] at hab
    · by_cases h3 : c.label = ".."
      · simp [h2, h3] at hbc
      · cases hd1 : a.isDirectory <;> cases hd2 : b.isDirectory <;> cases hd3 : c.isDirectory <;>
          simp [h1, h2, h3, hd1, hd2, hd3, localeCompare] at hab hbc ⊢ <;>
          exact cmpChars_le_trans hab hbc

/-- C3: `sortItems` (the order applied by the listing) sorts by a total
order — the relation is total and transitive, the output is a sorted
permutation of the input, every produced listing is sorted — and the order
is exactly: the `".."` parent first, then directories before files, then
ascending label comparison within a kind; the concrete five-entry example
sorts to exactly the expected sequence.  Determinism for identical inputs
is immediate since `sortItems` is a pure function. -/
theorem listEntries_sorted_total_order :
    (∀ a b : FileItem, itemLE a b ∨ itemLE b a)
    ∧ (∀ a b c : FileItem, itemLE a b → itemLE b c → itemLE a c)
    ∧ (∀ l : List FileItem, (sortItems l).Perm l ∧ List.Sorted itemLE (sortItems l))
    ∧ (∀ a b : FileItem, itemLE a b ↔
        (a.label = ".." ∨ (b.label ≠ ".." ∧
          ((a.isDirectory = true ∧ b.isDirectory = false) ∨
            (a.isDirectory = b.isDirectory ∧ localeCompare a.label b.label ≤ 0)))))
    ∧ (∀ fs root cur, List.Sorted itemLE (getDirectoryItems fs root cur).1)
    ∧ sortItems
        [⟨"zebra.txt", "/ws/zebra.txt", false, true, false⟩,
          ⟨"alpha/", "/ws/alpha", true, false, false⟩,
          ⟨"..", "/", true, false, false⟩,
          ⟨"beta/", "/ws/beta", true, false, false⟩,
          ⟨"apple.txt", "/ws/apple.txt", false, true, false⟩] =
        [⟨"..", "/", true, false, false⟩,
          ⟨"alpha/", "/ws/alpha", true, false, false⟩,
          ⟨"beta/", "/ws/beta", true, false, false⟩,
          ⟨"apple.txt", "/ws/apple.txt", false, true, false⟩,
          ⟨"zebra.txt", "/ws/zebra.txt", false, true, false⟩] := by
  haveI : IsTotal FileItem itemLE := ⟨itemLE_total⟩
  haveI : IsTrans FileItem itemLE := ⟨itemLE_trans⟩
  refine ⟨itemLE_total, itemLE_trans, ?_, ?_, ?_, by decide⟩
  · intro l
    exact ⟨List.perm_insertionSort itemLE l, List.sorted_insertionSort itemLE l⟩
  · intro a b
    unfold itemLE compareItems
    by_cases h1 : a.label = ".."
    · simp [h1]
    · by_cases h2 : b.label = ".."
      · simp [h1, h2]
      · cases hd1 : a.isDirectory <;> cases hd2 : b.isDirectory <;> simp [h1, h2, hd1, hd2]
  · intro fs root cur
    unfold getDirectoryItems
    cases hrd : fs.readdir cur with
    | error e => simp
    | ok files =>
      cases hbi : buildItems fs cur files with
      | error e => simp [hbi]
      | ok rest =>
        simp only [hbi]
        exact List.sorted_insertionSort itemLE _

/-! ### Claim C1 (the root boundary invariant) -/

theorem jsStartsWith_of_navGuard_false {root t : String} (h : navGuard root t = false) :
    jsStartsWith t root = true := by
  unfold navGuard at h
  simp at h
  exact h.2

theorem dropWhile_slash_append (q z : List Char) (hq : ∃ c ∈ q, (c == '/') = false) :
    (q ++ z).dropWhile (fun c => c == '/') = q.dropWhile (fun c => c == '/') ++ z := by
  induction q with
  | nil =>
    obtain ⟨c, hc, _⟩ := hq
    exact absurd hc (List.not_mem_nil c)
  | cons a q' ih =>
    by_cases ha : (a == '/') = true
    · have hq' : ∃ c ∈ q', (c == '/') = false := by
        obtain ⟨c, hc, hcf⟩ := hq
        rcases List.mem_cons.mp hc with h1 | h1
        · subst h1
          rw [ha] at hcf
          cases hcf
        · exact ⟨c, h1, hcf⟩
      simp [List.dropWhile_cons, ha, ih hq']
    · simp [List.dropWhile_cons, ha]

theorem dropWhile_to_slash (u w : List Char) :
    ∃ z, (u ++ '/' :: w).dropWhile (fun c => !(c == '/')) = z ++ '/' :: w := by
  induction u with
  | nil => exact ⟨[], by simp [List.dropWhile_cons]⟩
  | cons a u' ih =>
    by_cases ha : (a == '/') = true
    · refine ⟨a :: u', ?_⟩
      simp [List.dropWhile_cons, ha]
    · obtain ⟨z, hz⟩ := ih
      refine ⟨z, ?_⟩
      simp only [List.cons_append, List.dropWhile_cons, ha]
      simpa using hz

theorem leadsWith_dirnameList (rd sd : List Char) (hrd : rd ≠ [])
    (hs : ∃ c ∈ sd, (c == '/') = false) :
    leadsWith rd (dirnameList (rd ++ '/' :: sd)) = true := by
  rcases rd with _ | ⟨h₀, rt⟩
  · exact absurd rfl hrd
  · have hne : (h₀ :: rt) ++ '/' :: sd ≠ [] := by simp
    have hrrev : (rt ++ '/' :: sd).reverse = sd.reverse ++ '/' :: rt.reverse := by
      rw [List.reverse_append, List.reverse_cons, List.append_assoc]
      rfl
    have hqmem : ∃ c ∈ sd.reverse, (c == '/') = false := by
      obtain ⟨c, hc, hcf⟩ := hs
      exact ⟨c, List.mem_reverse.mpr hc, hcf⟩
    obtain ⟨z, hz⟩ := dropWhile_to_slash (sd.reverse.dropWhile (fun c => c == '/')) rt.reverse
    have hrest : ((((h₀ :: rt) ++ '/' :: sd).drop 1).reverse.dropWhile
          (fun c => c == '/')).dropWhile (fun c => !(c == '/')) = z ++ '/' :: rt.reverse := by
      have h1 : ((h₀ :: rt) ++ '/' :: sd).drop 1 = rt ++ '/' :: sd := rfl
      rw [h1, hrrev, dropWhile_slash_append sd.reverse ('/' :: rt.reverse) hqmem]
      exact hz
    have hrne : z ++ '/' :: rt.reverse ≠ [] := by simp
    unfold dirnameList
    rw [if_neg hne]
    simp only [hrest, if_neg hrne]
    by_cases hb : ((((h₀ :: rt) ++ '/' :: sd).head? == some '/') &&
        ((z ++ '/' :: rt.reverse).length == 1)) = true
    · rw [if_pos hb]
      have hlen1 : (z ++ '/' :: rt.reverse).length = 1 := by
        have h2 := ((Bool.and_eq_true _ _).mp hb).2
        simpa using h2
      have hz0 : z.length = 0 ∧ rt.length = 0 := by
        simp [List.length_append] at hlen1
        omega
      have hrt : rt = [] := List.length_eq_zero.mp hz0.2
      have hh0 : h₀ = '/' := by
        have := (Bool.and_eq_true _ _).mp hb
        have h2 := this.1
        simp [List.head?] at h2
        exact h2
      subst hrt
      subst hh0
      simp [leadsWith]
    · rw [if_neg hb]
      have hlen : (h₀ :: rt).length ≤ (z ++ '/' :: rt.reverse).length := by
        simp only [List.length_append, List.length_cons, List.length_reverse]
        omega
      have htake : ((h₀ :: rt) ++ '/' :: sd).take (z ++ '/' :: rt.reverse).length =
          (h₀ :: rt) ++ ('/' :: sd).take ((z ++ '/' :: rt.reverse).length - (h₀ :: rt).length) := by
        rw [List.take_append_eq_append_take, List.take_of_length_le hlen]
      rw [htake]
      exact leadsWith_append _ _

/-- C1 counterexample: the invariant claimed for every reachable session
state is false on the code — `show` seeds the session from any active
editor file, so with root `/ws` and active file `/etc/hosts` the seeded
state `/etc` is reachable, yet it neither equals the root nor is nested
under it. -/
theorem root_boundary_counterexample :
    dirname "/etc/hosts" = "/etc"
    ∧ Reachable "/ws" (dirname "/etc/hosts") "/etc"
    ∧ ¬("/etc" = "/ws" ∨ (jsStartsWith "/etc" "/ws" = true ∧ "/etc" ≠ "/ws")) :=
  ⟨by decide,
    by
      rw [show dirname "/etc/hosts" = "/etc" from by decide]
      exact Reachable.init_state,
    by decide⟩

/-- C1 (amended): in every session state reachable from an initial
directory that is the workspace root (no active editor) or the directory
`dirname f` of a reference file `f` lying strictly inside the root, the
current directory equals the root or is strictly nested under it; and
`navigateToPathAndUpdateQuickPick` rejects as a silent no-op, leaving the
whole quick-pick state (current directory, items, title, query) unchanged,
every target that is not the root and does not extend it, or is shorter
than it.  The in-root restriction on the reference file is forced by the
counterexample above: `show` itself accepts any active editor file. -/
theorem root_boundary_invariant :
    (∀ root init cur, Reachable root init cur →
      (init = root ∨ ∃ (f : String) (s : String), init = dirname f ∧
        f.data = root.data ++ '/' :: s.data ∧ ∃ c ∈ s.data, c ≠ '/') →
      cur = root ∨ (jsStartsWith cur root = true ∧ cur ≠ root))
    ∧ (∀ fs sep root st t,
        ((t ≠ root ∧ ¬(jsStartsWith t root = true ∧ t ≠ root)) ∨ jsLen t < jsLen root) →
        navigateToPathAndUpdateQuickPick fs sep root st t = st) := by
  constructor
  · have key : ∀ root init cur, Reachable root init cur →
        jsStartsWith init root = true → jsStartsWith cur root = true := by
      intro root init cur h hinit
      induction h with
      | init_state => exact hinit
      | nav cur target hcur ih =>
        by_cases hg : navGuard root target = true
        · simpa [hg] using ih
        · have hg2 : navGuard root target = false := by
            simpa using hg
          simpa [hg2] using jsStartsWith_of_navGuard_false hg2
    intro root init cur h hseed
    have hinit : jsStartsWith init root = true := by
      rcases hseed with heq | ⟨f, s, hif, hf, hs⟩
      · rw [heq]
        exact jsStartsWith_refl root
      · rw [hif]
        have hs2 : ∃ c ∈ s.data, (c == '/') = false := by
          obtain ⟨c, hc, hcf⟩ := hs
          exact ⟨c, hc, by simpa using hcf⟩
        by_cases hr : root.data = []
        · unfold jsStartsWith
          rw [hr]
          rfl
        · have hdf : dirname f = ⟨dirnameList (root.data ++ '/' :: s.data)⟩ := by
            unfold dirname
            rw [hf]
          rw [hdf]
          exact leadsWith_dirnameList root.data s.data hr hs2
    by_cases he : cur = root
    · exact Or.inl he
    · exact Or.inr ⟨key root init cur h hinit, he⟩
  · intro fs sep root st t hrej
    unfold navigateToPathAndUpdateQuickPick
    have hguard : navGuard root t = true := by
      unfold navGuard
      rcases hrej with ⟨hne, hnp⟩ | hlt
      · have : jsStartsWith t root = false := by
          by_cases hsw : jsStartsWith t root = true
          · exact absurd ⟨hsw, hne⟩ hnp
          · simpa using hsw
        simp [this]
      · simp [hlt]
    rw [if_pos hguard]

theorem root_boundary_witness :
    ("/ws/sub" = "/ws" ∨ (jsStartsWith "/ws/sub" "/ws" = true ∧ "/ws/sub" ≠ "/ws"))
    ∧ navigateToPathAndUpdateQuickPick demoFs "/" "/ws" demoState "/w" = demoState :=
  ⟨root_boundary_invariant.1 "/ws" (dirname "/ws/sub/a.txt") "/ws/sub"
      (by
        rw [show dirname "/ws/sub/a.txt" = "/ws/sub" from by decide]
        exact Reachable.init_state)
      (Or.inr ⟨"/ws/sub/a.txt", "sub/a.txt", rfl, by decide, by decide⟩),
    root_boundary_invariant.2 demoFs "/" "/ws" demoState "/w" (Or.inr (by decide))⟩

/-! ### Claim C2 (the path round trip): splitting lemmas -/

theorem splitOnSlash_ne_nil (l : List Char) : splitOnSlash l ≠ [] := by
  cases l with
  | nil => simp [splitOnSlash]
  | cons c rest =>
    unfold splitOnSlash
    cases h : splitOnSlash rest with
    | nil => simp
    | cons hd tl => by_cases hc : (c == '/') = true <;> simp [hc]

theorem splitOnSlash_no_slash (l : List Char) : ∀ c ∈ splitOnSlash l, '/' ∉ c := by
  induction l with
  | nil =>
    intro c hc
    simp [splitOnSlash] at hc
    subst hc
    simp
  | cons a rest ih =>
    intro c hc
    unfold splitOnSlash at hc
    cases h : splitOnSlash rest with
    | nil => exact absurd h (splitOnSlash_ne_nil rest)
    | cons hd tl =>
      rw [h] at hc
      have hmem_hd : hd ∈ splitOnSlash rest := by
        rw [h]
        exact List.mem_cons_self _ _
      by_cases ha : (a == '/') = true
      · simp only [ha, if_true] at hc
        rcases List.mem_cons.mp hc with hc1 | hc1
        · subst hc1
          simp
        · rcases List.mem_cons.mp hc1 with hc2 | hc2
          · rw [hc2]
            exact ih hd hmem_hd
          · refine ih c ?_
            rw [h]
            exact List.mem_cons_of_mem _ hc2
      · simp only [ha, if_false] at hc
        rcases List.mem_cons.mp hc with hc1 | hc1
        · subst hc1
          have hane : a ≠ '/' := by simpa using ha
          intro hmem
          rcases List.mem_cons.mp hmem with h1 | h1
          · exact hane h1.symm
          · exact ih hd hmem_hd h1
        · refine ih c ?_
          rw [h]
          exact List.mem_cons_of_mem _ hc1

theorem splitOnSlash_append_slash (l : List Char) :
    splitOnSlash (l ++ ['/']) = splitOnSlash l ++ [[]] := by
  induction l with
  | nil => rfl
  | cons a rest ih =>
    have hcons : (a :: rest) ++ ['/'] = a :: (rest ++ ['/']) := rfl
    rw [hcons]
    unfold splitOnSlash
    rw [ih]
    cases h : splitOnSlash rest with
    | nil => exact absurd h (splitOnSlash_ne_nil rest)
    | cons hd tl =>
      by_cases ha : (a == '/') = true <;> simp [ha]

theorem splitOnSlash_of_no_slash (x : List Char) (hx : '/' ∉ x) : splitOnSlash x = [x] := by
  induction x with
  | nil => rfl
  | cons a t ih =>
    have hat : '/' ∉ t := fun h => hx (List.mem_cons_of_mem _ h)
    have hane : (a == '/') = false := by
      have : a ≠ '/' := by
        intro h
        exact hx (by simp [h])
      simpa using this
    unfold splitOnSlash
    rw [ih hat]
    simp [hane]

theorem splitOnSlash_cons_slash (w : List Char) :
    splitOnSlash ('/' :: w) = [] :: splitOnSlash w := by
  simp only [splitOnSlash]
  cases h : splitOnSlash w with
  | nil => exact absurd h (splitOnSlash_ne_nil w)
  | cons hd tl => simp

theorem splitOnSlash_chunk (c z : List Char) (hc : '/' ∉ c) :
    splitOnSlash (c ++ '/' :: z) = c :: splitOnSlash z := by
  induction c with
  | nil =>
    show splitOnSlash ('/' :: z) = [] :: splitOnSlash z
    exact splitOnSlash_cons_slash z
  | cons a c' ih =>
    have hac : '/' ∉ c' := fun h => hc (List.mem_cons_of_mem _ h)
    have hane : (a == '/') = false := by
      have : a ≠ '/' := by
        intro h
        exact hc (by simp [h])
      simpa using this
    show splitOnSlash (a :: (c' ++ '/' :: z)) = (a :: c') :: splitOnSlash z
    simp only [splitOnSlash]
    rw [ih hac]
    simp [hane]

theorem splitOnSlash_intercalate (comps : List (List Char))
    (h : ∀ c ∈ comps, '/' ∉ c) (hne : comps ≠ []) :
    splitOnSlash (intercalateSlash comps) = comps := by
  induction comps with
  | nil => exact absurd rfl hne
  | cons c rest ih =>
    cases rest with
    | nil =>
      rw [show intercalateSlash [c] = c from rfl]
      exact splitOnSlash_of_no_slash c (h c (List.mem_cons_self _ _))
    | cons c₂ rest' =>
      rw [show intercalateSlash (c :: c₂ :: rest') = c ++ '/' :: intercalateSlash (c₂ :: rest')
        from rfl]
      rw [splitOnSlash_chunk _ _ (h c (List.mem_cons_self _ _))]
      rw [ih (fun x hx => h x (List.mem_cons_of_mem _ hx)) (by simp)]

/-! ### Claim C2: segment-resolution lemmas -/

theorem resolveComps_cons (a : Bool) (acc : List (List Char)) (c : List Char)
    (rest : List (List Char)) :
    resolveComps a acc (c :: rest) =
      (if c = [] ∨ c = ['.'] then resolveComps a acc rest
       else if c = ['.', '.'] then resolveComps a (ddStep a acc) rest
       else resolveComps a (c :: acc) rest) := rfl

theorem resolveComps_append_empty (a : Bool) (l : List (List Char)) :
    ∀ acc, resolveComps a acc (l ++ [[]]) = resolveComps a acc l := by
  induction l with
  | nil =>
    intro acc
    show resolveComps a acc [[]] = resolveComps a acc []
    rw [resolveComps_cons, if_pos (Or.inl rfl)]
  | cons c rest ih =>
    intro acc
    show resolveComps a acc (c :: (rest ++ [[]])) = resolveComps a acc (c :: rest)
    rw [resolveComps_cons, resolveComps_cons]
    by_cases h1 : c = [] ∨ c = ['.']
    · rw [if_pos h1, if_pos h1]
      exact ih acc
    · by_cases h2 : c = ['.', '.']
      · rw [if_neg h1, if_neg h1, if_pos h2, if_pos h2]
        exact ih _
      · rw [if_neg h1, if_neg h1, if_neg h2, if_neg h2]
        exact ih _

theorem resolveComps_shape (a : Bool) (l : List (List Char)) (hl : ∀ c ∈ l, '/' ∉ c) :
    ∀ acc ns k, acc = ns ++ List.replicate k ['.', '.'] →
      (∀ c ∈ ns, goodComp c) → (a = false → k = 0) →
      ∃ k2 ns2, resolveComps a acc l = List.replicate k2 ['.', '.'] ++ ns2
        ∧ (∀ c ∈ ns2, goodComp c) ∧ (a = false → k2 = 0) := by
  induction l with
  | nil =>
    intro acc ns k hacc hns hk
    refine ⟨k, ns.reverse, ?_, ?_, hk⟩
    · show acc.reverse = _
      rw [hacc, List.reverse_append, List.reverse_replicate]
    · intro c hc
      exact hns c (List.mem_reverse.mp hc)
  | cons c rest ih =>
    intro acc ns k hacc hns hk
    have hlr : ∀ x ∈ rest, '/' ∉ x := fun x hx => hl x (List.mem_cons_of_mem _ hx)
    rw [resolveComps_cons]
    by_cases h1 : c = [] ∨ c = ['.']
    · rw [if_pos h1]
      exact ih hlr acc ns k hacc hns hk
    · by_cases h2 : c = ['.', '.']
      · rw [if_neg h1, if_pos h2]
        cases ns with
        | nil =>
          cases k with
          | zero =>
            have hacc0 : acc = [] := by simpa using hacc
            subst hacc0
            rcases Bool.eq_false_or_eq_true a with ha | ha
            · subst ha
              have hdd : ddStep true [] = ([] : List (List Char)) ++ List.replicate 1 ['.', '.'] := by
                simp [ddStep]
              exact ih hlr _ [] 1 hdd (by simp) (fun h => Bool.noConfusion h)
            · subst ha
              have hdd : ddStep false [] = ([] : List (List Char)) ++ List.replicate 0 ['.', '.'] := by
                simp [ddStep]
              exact ih hlr _ [] 0 hdd (by simp) (fun _ => rfl)
          | succ k' =>
            have ha : a = true := by
              rcases Bool.eq_false_or_eq_true a with ha | ha
              · exact ha
              · exact absurd (hk ha) (Nat.succ_ne_zero k')
            subst ha
            have hacc1 : acc = ['.', '.'] :: List.replicate k' ['.', '.'] := by
              simpa [List.replicate_succ] using hacc
            have hdd : ddStep true acc = ([] : List (List Char)) ++ List.replicate (k' + 2) ['.', '.'] := by
              rw [hacc1]
              simp [ddStep, List.replicate_succ]
            exact ih hlr _ [] (k' + 2) hdd (by simp) (fun h => Bool.noConfusion h)
        | cons n ns' =>
          have hngood := hns n (List.mem_cons_self _ _)
          have hnd : n ≠ ['.', '.'] := hngood.2.2.1
          have hacc1 : acc = n :: (ns' ++ List.replicate k ['.', '.']) := by
            simpa using hacc
          have hdd : ddStep a acc = ns' ++ List.replicate k ['.', '.'] := by
            rw [hacc1]
            simp [ddStep, hnd]
          exact ih hlr _ ns' k hdd (fun x hx => hns x (List.mem_cons_of_mem _ hx)) hk
      · rw [if_neg h1, if_neg h2]
        have hgc : goodComp c := by
          refine ⟨?_, ?_, h2, hl c (List.mem_cons_self _ _)⟩
          · intro h
            exact h1 (Or.inl h)
          · intro h
            exact h1 (Or.inr h)
        have hacc1 : c :: acc = (c :: ns) ++ List.replicate k ['.', '.'] := by
          rw [hacc]
          rfl
        refine ih hlr _ (c :: ns) k hacc1 ?_ hk
        intro x hx
        rcases List.mem_cons.mp hx with h | h
        · subst h
          exact hgc
        · exact hns x h

theorem resolveComps_dd_run (ns : List (List Char)) :
    ∀ k j, resolveComps true (List.replicate j ['.', '.'])
        (List.replicate k ['.', '.'] ++ ns) =
      resolveComps true (List.replicate (k + j) ['.', '.']) ns := by
  intro k
  induction k generalizing ns with
  | zero =>
    intro j
    simp
  | succ k' ih =>
    intro j
    have hrepl : List.replicate (k' + 1) ['.', '.'] ++ ns =
        ['.', '.'] :: (List.replicate k' ['.', '.'] ++ ns) := by
      simp [List.replicate_succ]
    rw [hrepl, resolveComps_cons, if_neg (by simp), if_pos rfl]
    have hdd : ddStep true (List.replicate j ['.', '.']) = List.replicate (j + 1) ['.', '.'] := by
      cases j with
      | zero => simp [ddStep]
      | succ j' => simp [ddStep, List.replicate_succ]
    rw [hdd, ih ns (j + 1)]
    have : k' + (j + 1) = k' + 1 + j := by omega
    rw [this]

theorem resolveComps_names (a : Bool) (ns : List (List Char)) :
    (∀ c ∈ ns, goodComp c) → ∀ acc, resolveComps a acc ns = acc.reverse ++ ns := by
  induction ns with
  | nil =>
    intro _ acc
    simp [resolveComps]
  | cons n ns' ih =>
    intro hns acc
    have hn := hns n (List.mem_cons_self _ _)
    have h1 : ¬(n = [] ∨ n = ['.']) := fun hor => hor.elim hn.1 hn.2.1
    rw [resolveComps_cons, if_neg h1, if_neg hn.2.2.1]
    rw [ih (fun x hx => hns x (List.mem_cons_of_mem _ hx)) (n :: acc)]
    simp

theorem resolveComps_id (a : Bool) (k : Nat) (ns : List (List Char))
    (hns : ∀ c ∈ ns, goodComp c) (hk : a = false → k = 0) :
    resolveComps a [] (List.replicate k ['.', '.'] ++ ns) =
      List.replicate k ['.', '.'] ++ ns := by
  cases ha : a with
  | false =>
    rw [hk ha]
    simp only [List.replicate, List.nil_append]
    rw [resolveComps_names false ns hns []]
    rfl
  | true =>
    have h0 : ([] : List (List Char)) = List.replicate 0 ['.', '.'] := rfl
    rw [h0, resolveComps_dd_run ns k 0]
    rw [resolveComps_names true ns hns _]
    simp

/-! ### Claim C2: the canonical form is invariant under normalization -/

theorem canonList_eval (l : List Char) :
    canonList l = (leadsWith ['/'] l, resolveComps (!leadsWith ['/'] l) [] (splitOnSlash l)) := rfl

theorem intercalateSlash_cons (c : List Char) (rest : List (List Char)) :
    ∃ q, intercalateSlash (c :: rest) = c ++ q := by
  cases rest with
  | nil => exact ⟨[], by simp [intercalateSlash]⟩
  | cons c₂ rest' => exact ⟨'/' :: intercalateSlash (c₂ :: rest'), rfl⟩

theorem canonList_append_slash (l : List Char) (hl : l ≠ []) :
    canonList (l ++ ['/']) = canonList l := by
  rcases l with _ | ⟨c, t⟩
  · exact absurd rfl hl
  · rw [canonList_eval, canonList_eval]
    have h1 : leadsWith ['/'] ((c :: t) ++ ['/']) = leadsWith ['/'] (c :: t) := by
      show leadsWith ['/'] (c :: (t ++ ['/'])) = leadsWith ['/'] (c :: t)
      simp [leadsWith]
    rw [h1, splitOnSlash_append_slash, resolveComps_append_empty]

theorem canonList_render (ab tr : Bool) (comps : List (List Char))
    (hcne : comps ≠ [])
    (hshape : ∃ k ns, comps = List.replicate k ['.', '.'] ++ ns
      ∧ (∀ c ∈ ns, goodComp c) ∧ ((!ab) = false → k = 0)) :
    canonList ((if ab then ['/'] else []) ++ intercalateSlash comps ++
      (if tr then ['/'] else [])) = (ab, comps) := by
  obtain ⟨k, ns, hc, hgood, hk⟩ := hshape
  have hnoslash : ∀ c ∈ comps, '/' ∉ c := by
    intro c hcm
    rw [hc] at hcm
    rcases List.mem_append.mp hcm with hm | hm
    · rw [List.eq_of_mem_replicate hm]
      decide
    · exact (hgood c hm).2.2.2
  have hnonempty : ∀ c ∈ comps, c ≠ [] := by
    intro c hcm
    rw [hc] at hcm
    rcases List.mem_append.mp hcm with hm | hm
    · rw [List.eq_of_mem_replicate hm]
      decide
    · exact (hgood c hm).1
  have hsplit : splitOnSlash (intercalateSlash comps) = comps :=
    splitOnSlash_intercalate comps hnoslash hcne
  obtain ⟨c₀, rest₀, hc₀⟩ : ∃ c₀ rest₀, comps = c₀ :: rest₀ := by
    cases comps with
    | nil => exact absurd rfl hcne
    | cons x xs => exact ⟨x, xs, rfl⟩
  obtain ⟨q, hq⟩ := intercalateSlash_cons c₀ rest₀
  have hc₀ne : c₀ ≠ [] := hnonempty c₀ (by rw [hc₀]; exact List.mem_cons_self _ _)
  have hc₀ns : '/' ∉ c₀ := hnoslash c₀ (by rw [hc₀]; exact List.mem_cons_self _ _)
  obtain ⟨ch, c₀', hch⟩ : ∃ ch c₀', c₀ = ch :: c₀' := by
    cases c₀ with
    | nil => exact absurd rfl hc₀ne
    | cons x xs => exact ⟨x, xs, rfl⟩
  have hchne : ('/' == ch) = false := by
    have h2 : ch ≠ '/' := by
      intro h
      apply hc₀ns
      rw [hch, h]
      exact List.mem_cons_self _ _
    exact beq_eq_false_iff_ne.mpr (fun h => h2 h.symm)
  have hinter : intercalateSlash comps = ch :: (c₀' ++ q) := by
    rw [hc₀, hq, hch]
    rfl
  have hidT : resolveComps true [] comps = comps := by
    rw [hc]
    exact resolveComps_id true k ns hgood (fun h => Bool.noConfusion h)
  cases ab with
  | true =>
    have hk0 : k = 0 := hk rfl
    have hidF : resolveComps false [] comps = comps := by
      rw [hc, hk0]
      exact resolveComps_id false 0 ns hgood (fun _ => rfl)
    cases tr with
    | true =>
      have hL : (if (true : Bool) then ['/'] else []) ++ intercalateSlash comps ++
          (if (true : Bool) then ['/'] else []) =
          '/' :: (intercalateSlash comps ++ ['/']) := by simp
      rw [hL, canonList_eval]
      have h1 : leadsWith ['/'] ('/' :: (intercalateSlash comps ++ ['/'])) = true := by
        simp [leadsWith]
      rw [h1]
      simp only [Bool.not_true]
      rw [splitOnSlash_cons_slash, splitOnSlash_append_slash, hsplit]
      rw [resolveComps_cons, if_pos (Or.inl rfl), resolveComps_append_empty, hidF]
    | false =>
      have hL : (if (true : Bool) then ['/'] else []) ++ intercalateSlash comps ++
          (if (false : Bool) then ['/'] else []) =
          '/' :: intercalateSlash comps := by simp
      rw [hL, canonList_eval]
      have h1 : leadsWith ['/'] ('/' :: intercalateSlash comps) = true := by
        simp [leadsWith]
      rw [h1]
      simp only [Bool.not_true]
      rw [splitOnSlash_cons_slash, hsplit]
      rw [resolveComps_cons, if_pos (Or.inl rfl), hidF]
  | false =>
    cases tr with
    | true =>
      have hL : (if (false : Bool) then ['/'] else []) ++ intercalateSlash comps ++
          (if (true : Bool) then ['/'] else []) =
          intercalateSlash comps ++ ['/'] := by simp
      rw [hL, canonList_eval]
      have h1 : leadsWith ['/'] (intercalateSlash comps ++ ['/']) = false := by
        rw [hinter]
        show leadsWith ['/'] (ch :: (c₀' ++ q ++ ['/'])) = false
        simp [leadsWith, hchne]
      rw [h1]
      simp only [Bool.not_false]
      rw [splitOnSlash_append_slash, hsplit, resolveComps_append_empty, hidT]
    | false =>
      have hL : (if (false : Bool) then ['/'] else []) ++ intercalateSlash comps ++
          (if (false : Bool) then ['/'] else []) =
          intercalateSlash comps := by simp
      rw [hL, canonList_eval]
      have h1 : leadsWith ['/'] (intercalateSlash comps) = false := by
        rw [hinter]
        simp [leadsWith, hchne]
      rw [h1]
      simp only [Bool.not_false]
      rw [hsplit, hidT]

theorem canonList_normalizeList (y : List Char) :
    canonList (normalizeList y) = canonList y := by
  by_cases hy : y = []
  · subst hy
    decide
  · obtain ⟨k, ns, hcomps, hgood, hk⟩ :=
      resolveComps_shape (!leadsWith ['/'] y) (splitOnSlash y) (splitOnSlash_no_slash y)
        [] [] 0 rfl (by simp) (fun _ => rfl)
    have hnorm : normalizeList y =
        (if resolveComps (!leadsWith ['/'] y) [] (splitOnSlash y) = [] then
          (if leadsWith ['/'] y then ['/']
           else if leadsWith ['/'] y.reverse then ['.', '/'] else ['.'])
        else (if leadsWith ['/'] y then ['/'] else []) ++
          intercalateSlash (resolveComps (!leadsWith ['/'] y) [] (splitOnSlash y)) ++
          (if leadsWith ['/'] y.reverse then ['/'] else [])) := by
      unfold normalizeList
      rw [if_neg hy]
    by_cases hcz : resolveComps (!leadsWith ['/'] y) [] (splitOnSlash y) = []
    · rw [hnorm, if_pos hcz, canonList_eval y, hcz]
      cases habs : leadsWith ['/'] y with
      | true =>
        rw [if_pos rfl]
        decide
      | false =>
        rw [if_neg (by decide)]
        cases htr : leadsWith ['/'] y.reverse with
        | true =>
          rw [if_pos rfl]
          decide
        | false =>
          rw [if_neg (by decide)]
          decide
    · rw [hnorm, if_neg hcz, canonList_eval y]
      exact canonList_render (leadsWith ['/'] y) (leadsWith ['/'] y.reverse) _ hcz
        ⟨k, ns, hcomps, hgood, hk⟩

/-! ### Claim C2: the round trip -/

theorem pathEq_normalize (p : String) : pathEq (pathNormalize p) p :=
  canonList_normalizeList p.data

theorem getRelativePath_self (sep root : String) : getRelativePath sep root root = "" := by
  unfold getRelativePath
  rw [if_pos (jsStartsWith_refl root)]
  have h1 : jsSubstringFrom root (jsLen root) = "" := by
    unfold jsSubstringFrom jsLen
    rw [List.drop_length]
  simp only [h1]
  cases h : (jsStartsWith "" sep || jsStartsWith "" "\\") <;> simp [h, jsSubstringFrom]

theorem data_append_eq (root s : String) :
    (root ++ "/" ++ s).data = root.data ++ '/' :: s.data := by
  show (root.data ++ ['/']) ++ s.data = root.data ++ '/' :: s.data
  rw [List.append_assoc]
  rfl

/-- C2: for every absolute root and every path `p` at or under it,
`getFullPath (getRelativePath p)` is path-equal to `p` (equal canonical
forms: same absoluteness and same resolved segments). -/
theorem relative_absolute_roundtrip (root p : String)
    (habs : jsStartsWith root "/" = true)
    (hunder : p = root ∨ ∃ s, p = root ++ "/" ++ s) :
    pathEq (getFullPath root (getRelativePath "/" root p)) p := by
  have hroot_ne : root ≠ "" := by
    intro h
    subst h
    simp [jsStartsWith, leadsWith] at habs
  have hrootd_ne : root.data ≠ [] := fun h => hroot_ne (String.ext h)
  rcases hunder with heq | ⟨s, heq⟩ <;> rw [heq]
  · rw [getRelativePath_self]
    unfold getFullPath pathJoin
    rw [if_neg hroot_ne, if_pos rfl]
    exact pathEq_normalize root
  · have hpd : (root ++ "/" ++ s).data = root.data ++ '/' :: s.data := data_append_eq root s
    have hpd_ne : (root ++ "/" ++ s).data ≠ [] := by
      rw [hpd]
      simp
    have hstart : jsStartsWith (root ++ "/" ++ s) root = true := by
      unfold jsStartsWith
      rw [hpd]
      exact leadsWith_append _ _
    have hrel : getRelativePath "/" root (root ++ "/" ++ s) =
        (if !(s == "") && !jsEndsWith s "/" then s ++ "/" else s) := by
      unfold getRelativePath
      rw [if_pos hstart]
      have h1 : jsSubstringFrom (root ++ "/" ++ s) (jsLen root) = ⟨'/' :: s.data⟩ := by
        unfold jsSubstringFrom jsLen
        rw [hpd]
        rw [List.drop_left]
      simp only [h1]
      have h2 : jsStartsWith (⟨'/' :: s.data⟩ : String) "/" = true := by
        unfold jsStartsWith
        show leadsWith ['/'] ('/' :: s.data) = true
        simp [leadsWith]
      simp only [h2, Bool.true_or, if_true]
      have h3 : jsSubstringFrom (⟨'/' :: s.data⟩ : String) 1 = s := by
        unfold jsSubstringFrom
        show (⟨s.data⟩ : String) = s
        rfl
      simp only [h3]
    rw [hrel]
    by_cases hb : (!(s == "") && !jsEndsWith s "/") = true
    · rw [if_pos hb]
      have hs_ne : s ++ "/" ≠ "" := by
        intro h
        have hd : s.data ++ ['/'] = [] := by
          have h2 : (s ++ "/").data = s.data ++ ['/'] := rfl
          rw [← h2, h]
        simp at hd
      unfold getFullPath pathJoin
      rw [if_neg hroot_ne, if_neg hs_ne]
      show canonList (normalizeList ((root ++ "/" ++ (s ++ "/")).data)) =
        canonList ((root ++ "/" ++ s).data)
      rw [canonList_normalizeList]
      have hd2 : (root ++ "/" ++ (s ++ "/")).data = (root ++ "/" ++ s).data ++ ['/'] := by
        rw [data_append_eq root (s ++ "/"), hpd]
        show root.data ++ '/' :: (s.data ++ ['/']) = (root.data ++ '/' :: s.data) ++ ['/']
        simp
      rw [hd2]
      exact canonList_append_slash _ hpd_ne
    · rw [if_neg hb]
      by_cases hs : s = ""
      · subst hs
        unfold getFullPath pathJoin
        rw [if_neg hroot_ne, if_pos rfl]
        show canonList (normalizeList root.data) = canonList ((root ++ "/" ++ "").data)
        rw [canonList_normalizeList]
        have hemp : (root ++ "/" ++ "").data = root.data ++ ['/'] := by
          rw [data_append_eq root ""]
        rw [hemp, canonList_append_slash _ hrootd_ne]
      · unfold getFullPath pathJoin
        rw [if_neg hroot_ne, if_neg hs]
        show canonList (normalizeList ((root ++ "/" ++ s).data)) =
          canonList ((root ++ "/" ++ s).data)
        exact canonList_normalizeList _

theorem roundtrip_witness :
    jsStartsWith "/ws" "/" = true
    ∧ ("/ws/src" = "/ws" ∨ ∃ s, "/ws/src" = "/ws" ++ "/" ++ s)
    ∧ pathEq (getFullPath "/ws" (getRelativePath "/" "/ws" "/ws/src")) "/ws/src" :=
  ⟨by decide, Or.inr ⟨"src", rfl⟩,
    relative_absolute_roundtrip "/ws" "/ws/src" (by decide) (Or.inr ⟨"src", rfl⟩)⟩

/-! ### Claim C8 (`getRelativePath` case analysis) -/

theorem jsEndsWith_append_slash (x : String) : jsEndsWith (x ++ "/") "/" = true := by
  unfold jsEndsWith
  have h1 : (x ++ "/").data = x.data ++ ['/'] := rfl
  rw [h1, List.reverse_append]
  show leadsWith ['/'] ('/' :: x.data.reverse) = true
  simp [leadsWith]

/-- C8: `getRelativePath` returns paths not starting with the root
unchanged, maps the root itself to the empty string, and otherwise returns
the suffix after the root with one leading platform separator (or
backslash) stripped and a trailing forward slash ensured whenever the
result is non-empty — the trailing separator is the forward slash for every
platform separator `sep`. -/
theorem getRelativePath_spec (sep root full : String) :
    (jsStartsWith full root = false → getRelativePath sep root full = full)
    ∧ getRelativePath sep root root = ""
    ∧ (∀ t, t = (if jsStartsWith (jsSubstringFrom full (jsLen root)) sep ||
          jsStartsWith (jsSubstringFrom full (jsLen root)) "\\"
        then jsSubstringFrom (jsSubstringFrom full (jsLen root)) 1
        else jsSubstringFrom full (jsLen root)) →
      jsStartsWith full root = true →
        getRelativePath sep root full =
          (if t = "" then "" else if jsEndsWith t "/" = true then t else t ++ "/"))
    ∧ (getRelativePath sep root full ≠ "" → jsStartsWith full root = true →
        jsEndsWith (getRelativePath sep root full) "/" = true) := by
  have key : ∀ t, t = (if jsStartsWith (jsSubstringFrom full (jsLen root)) sep ||
        jsStartsWith (jsSubstringFrom full (jsLen root)) "\\"
      then jsSubstringFrom (jsSubstringFrom full (jsLen root)) 1
      else jsSubstringFrom full (jsLen root)) →
      jsStartsWith full root = true →
      getRelativePath sep root full =
        (if t = "" then "" else if jsEndsWith t "/" = true then t else t ++ "/") := by
    intro t ht hstart
    have hun : getRelativePath sep root full =
        (if !(t == "") && !jsEndsWith t "/" then t ++ "/" else t) := by
      unfold getRelativePath
      rw [if_pos hstart]
      simp only [← ht]
    rw [hun]
    by_cases h0 : t = ""
    · subst h0
      simp
    · rw [if_neg h0]
      by_cases h1 : jsEndsWith t "/" = true
      · simp [h1]
      · have h1f : jsEndsWith t "/" = false := by simpa using h1
        simp [h0, h1f]
  refine ⟨?_, getRelativePath_self sep root, key, ?_⟩
  · intro h
    unfold getRelativePath
    rw [if_neg (by simp [h])]
  · intro hne hstart
    have h := key _ rfl hstart
    rw [h] at hne ⊢
    by_cases h0 : (if jsStartsWith (jsSubstringFrom full (jsLen root)) sep ||
        jsStartsWith (jsSubstringFrom full (jsLen root)) "\\"
      then jsSubstringFrom (jsSubstringFrom full (jsLen root)) 1
      else jsSubstringFrom full (jsLen root)) = ""
    · rw [if_pos h0] at hne
      exact absurd rfl hne
    · rw [if_neg h0] at hne ⊢
      by_cases h1 : jsEndsWith (if jsStartsWith (jsSubstringFrom full (jsLen root)) sep ||
          jsStartsWith (jsSubstringFrom full (jsLen root)) "\\"
        then jsSubstringFrom (jsSubstringFrom full (jsLen root)) 1
        else jsSubstringFrom full (jsLen root)) "/" = true
      · rw [if_pos h1]
        exact h1
      · rw [if_neg h1]
        exact jsEndsWith_append_slash _

theorem getRelativePath_spec_witness :
    getRelativePath "/" "/ws" "/outside" = "/outside"
    ∧ getRelativePath "/" "/ws" "/ws" = ""
    ∧ getRelativePath "/" "/ws" "/ws/src" =
        (if ("src" : String) = "" then ""
         else if jsEndsWith "src" "/" = true then "src" else "src" ++ "/")
    ∧ jsEndsWith (getRelativePath "/" "/ws" "/ws/src") "/" = true :=
  ⟨(getRelativePath_spec "/" "/ws" "/outside").1 (by decide),
    (getRelativePath_spec "/" "/ws" "/ws").2.1,
    (getRelativePath_spec "/" "/ws" "/ws/src").2.2.1 "src" (by decide) (by decide),
    (getRelativePath_spec "/" "/ws" "/ws/src").2.2.2 (by decide) (by decide)⟩

theorem listEntries_sorted_witness :
    itemLE ⟨"..", "/", true, false, false⟩ ⟨"beta/", "/ws/beta", true, false, false⟩ :=
  listEntries_sorted_total_order.2.1 ⟨"..", "/", true, false, false⟩
    ⟨"alpha/", "/ws/alpha", true, false, false⟩ ⟨"beta/", "/ws/beta", true, false, false⟩
    (by decide) (by decide)
